import Mathlib

/-!
Shallow embedding of `review-reminder.py`: a GitLab reminder script that, for
each configured project, lists open non-draft merge requests, computes the set
of people that should be nudged (pending reviewers, escalated by unresolved
discussions), attaches a weekday-based staleness label, and posts a single
Teams card to a webhook.  Upstream API calls are modelled as `Except`-valued
responses stored in an environment; a failing call carries the response body.
-/

/-- Body of a non-success HTTP response (`response.json()` in the script). -/
abbrev ErrBody := String

deriving instance DecidableEq for Except

/-- A note of a discussion: author id and the optional `resolved` flag. -/
structure Note where
  authorId : Nat
  resolved : Option Bool
deriving DecidableEq

/-- A discussion: a list of notes. -/
structure Discussion where
  notes : List Note
deriving DecidableEq

/-- Raw user profile as returned by `GET /users/:id`. -/
structure UserData where
  username : String
  name : String
  publicEmail : Option String
deriving DecidableEq

/-- One merge request, bundled with the responses the script fetches for it
(discussions and approvals), each of which may be a failing response. -/
structure MRData where
  iid : Nat
  title : String
  webUrl : String
  authorId : Nat
  draft : Bool
  updatedAt : Nat
  reviewerIds : List Nat
  discussionsResp : Except ErrBody (List Discussion)
  approvalsResp : Except ErrBody (List Nat)
deriving DecidableEq

/-- One configured project: its name, the project-search response and the
merge-request-list response. -/
structure ProjectData where
  name : String
  searchResp : Except ErrBody (Option Nat)
  mrsResp : Except ErrBody (List MRData)
deriving DecidableEq

/-- The whole upstream world for one run: the configured projects in order,
the user-lookup endpoint, the `USER_EMAILS` override map, and the current
time.  Timestamps are minutes since an epoch that falls on a Monday 00:00,
so that `weekday` matches Python's `date.weekday()` (Monday = 0). -/
structure Env where
  projects : List ProjectData
  userResp : Nat → Except ErrBody UserData
  userEmails : List (String × String)
  now : Nat

/-- Result of `get_user_info`: username, display name (with fallback), and
the resolved email (public email, falling back to the override map). -/
structure UserInfo where
  username : String
  name : String
  email : Option String
deriving DecidableEq

/-- An adaptive-card text block (text, separator flag, bold flag). -/
structure TextBlock where
  text : String
  separator : Bool
  bold : Bool
deriving DecidableEq

/-- A card body element: a top-level text block, or the column-set holding a
project's merge-request blocks. -/
inductive Block where
  | text : TextBlock → Block
  | columnSet : List TextBlock → Block
deriving DecidableEq

/-- An msteams mention entity: rendered text, mentioned id (email), name. -/
structure Mention where
  text : String
  id : String
  name : String
deriving DecidableEq

/-- Python truthiness of an optional email string: `None` and `""` are falsy. -/
def emailTruthy : Option String → Bool
  | none => false
  | some s => !(s == "")

/-- `user_emails.get(username)`: first matching entry of the override map. -/
def lookupOverride (m : List (String × String)) (u : String) : Option String :=
  (m.find? (fun p => p.1 == u)).map Prod.snd

/-- `get_user_info`: fetch the profile, fall back to username for the name and
to the override map for the email. -/
def get_user_info (env : Env) (id : Nat) : Except ErrBody UserInfo :=
  match env.userResp id with
  | .error b => .error b
  | .ok u =>
    .ok { username := u.username
          name := if u.name == "" then u.username else u.name
          email := if emailTruthy u.publicEmail then u.publicEmail
                   else lookupOverride env.userEmails u.username }

/-- The mention entity built for one user in `make_mentions`. -/
def entityOf (u : UserInfo) : Mention :=
  { text := "<at>" ++ u.name ++ "</at>"
    id := u.email.getD ""
    name := u.name }

/-- The order in which the script's set iteration is modelled: ascending ids.
(Python's set iteration order is unspecified; every property proved about the
mention list is order-insensitive.) -/
def sortedIds (s : Finset Nat) : List Nat :=
  (List.range (s.sup id + 1)).filter (fun a => a ∈ s)

/-- Sequential `Except`-valued map: stops at the first failing call, exactly
like the Python list comprehensions over API calls. -/
def mapME {α β : Type} (f : α → Except ErrBody β) : List α → Except ErrBody (List β)
  | [] => .ok []
  | x :: xs =>
    match f x with
    | .error b => .error b
    | .ok y =>
      match mapME f xs with
      | .error b => .error b
      | .ok ys => .ok (y :: ys)

/-- `make_mentions`: look up every pending user, keep those with a truthy
email, and build the mention text block plus the mention entities. -/
def make_mentions (env : Env) (pending : Finset Nat) :
    Except ErrBody (TextBlock × List Mention) :=
  match mapME (get_user_info env) (sortedIds pending) with
  | .error b => .error b
  | .ok users =>
    let users := users.filter (fun u => emailTruthy u.email)
    .ok ({ text := String.intercalate " " (users.map (fun u => "<at>" ++ u.name ++ "</at>"))
           separator := false
           bold := false },
         users.map entityOf)

/-- Python `date.weekday()` of a timestamp in minutes: Monday = 0. -/
def weekday (t : Nat) : Nat := t / 1440 % 7

/-- `datetime.now().strftime('%A')`. -/
def dayName (t : Nat) : String :=
  match weekday t with
  | 0 => "Monday"
  | 1 => "Tuesday"
  | 2 => "Wednesday"
  | 3 => "Thursday"
  | 4 => "Friday"
  | 5 => "Saturday"
  | _ => "Sunday"

/-- `stale_days`: the script steps forward from `updated + 1 day` in whole
24-hour increments, `(now - updated).days` many times, and counts the steps
that land on a weekday.  (Python's `timedelta.days` floors, and a negative
difference yields an empty range, which truncated subtraction reproduces.) -/
def staleDays (now updated : Nat) : Nat :=
  ((Finset.range ((now - updated) / 1440)).filter
    (fun idx => weekday (updated + 1440 * (idx + 1)) < 5)).card

/-- The staleness suffix appended to the title: nonempty iff `stale_days > 2`. -/
def staleLabel (now updated : Nat) : String :=
  if staleDays now updated > 2 then
    " " ++ toString (staleDays now updated) ++ " days old"
  else ""

/-- The markdown title line of one merge request, staleness suffix included. -/
def mrTitleString (env : Env) (m : MRData) : String :=
  "[" ++ m.title ++ "](" ++ m.webUrl ++ ")" ++ staleLabel env.now m.updatedAt

/-- Authors of unresolved discussion notes: a note counts only when its
`resolved` flag is present and false. -/
def unresolvedAuthors (ds : List Discussion) : Finset Nat :=
  ((((ds.map Discussion.notes).flatten).filter
      (fun n => n.resolved == some false)).map Note.authorId).toFinset

/-- Initial pending set: `set(reviewers) - set(approvers)`. -/
def pendingInit (reviewers approvers : List Nat) : Finset Nat :=
  reviewers.toFinset \ approvers.toFinset

/-- The escalation step of the merge-request loop: when there are unresolved
discussion authors or no pending reviewer, drop the unresolved authors and
add the merge request's author. -/
def escalate (pending unres : Finset Nat) (author : Nat) : Finset Nat :=
  if 0 < unres.card ∨ pending.card = 0 then
    insert author (pending \ unres)
  else pending

/-- What one iteration of the merge-request loop contributes. -/
structure MRResult where
  titleBlock : TextBlock
  mentionBlock : TextBlock
  mentionEntities : List Mention
  pending : Finset Nat
  iid : Nat
deriving DecidableEq

/-- One iteration of the merge-request loop: fetch discussions and approvals,
compute the escalated pending set, build the title and mention blocks. -/
def processMR (env : Env) (m : MRData) : Except ErrBody MRResult :=
  match m.discussionsResp with
  | .error b => .error b
  | .ok ds =>
    match m.approvalsResp with
    | .error b => .error b
    | .ok aps =>
      match make_mentions env (escalate (pendingInit m.reviewerIds aps) (unresolvedAuthors ds) m.authorId) with
      | .error b => .error b
      | .ok mp =>
        .ok { titleBlock := { text := mrTitleString env m, separator := false, bold := true }
              mentionBlock := mp.1
              mentionEntities := mp.2
              pending := escalate (pendingInit m.reviewerIds aps) (unresolvedAuthors ds) m.authorId
              iid := m.iid }

/-- One project iteration up to its merge-request results: resolve the
project, list its merge requests, drop drafts, process each one.  -/
def processProject (env : Env) (p : ProjectData) : Except ErrBody (List MRResult) :=
  match p.searchResp with
  | .error b => .error b
  | .ok _ =>
    match p.mrsResp with
    | .error b => .error b
    | .ok mrs => mapME (processMR env) (mrs.filter (fun m => !m.draft))

/-- All projects in order, each paired with its merge-request results. -/
def runProjects (env : Env) : Except ErrBody (List (ProjectData × List MRResult)) :=
  mapME (fun p =>
    match processProject env p with
    | .error b => .error b
    | .ok rs => .ok (p, rs)) env.projects

/-- The two text blocks one merge request contributes to its project body. -/
def mrBlocks (r : MRResult) : List TextBlock :=
  [r.titleBlock, r.mentionBlock]

/-- The card section of one project: nothing when the project body is empty,
otherwise a spacer, the bold project name, and the column set. -/
def projectSection (name : String) (results : List MRResult) : List Block :=
  let pb := (results.map mrBlocks).flatten
  if pb = [] then []
  else
    [Block.text { text := "", separator := false, bold := false },
     Block.text { text := name, separator := false, bold := true },
     Block.columnSet pb]

/-- The two greeting blocks emitted before any project section. -/
def headerBlocks (env : Env) : List Block :=
  [Block.text { text := "Happy " ++ dayName env.now ++ " Everyone!", separator := false, bold := false },
   Block.text { text := "Here are the Merge Requests needing review...", separator := false, bold := false }]

/-- Union of a list of finsets (the `notified_people.update` accumulator). -/
def unionAll (l : List (Finset Nat)) : Finset Nat :=
  l.foldr (· ∪ ·) ∅

/-- Everything the run has accumulated once every project is processed. -/
structure RunOutput where
  body : List Block
  entities : List Mention
  notifiedMrs : Finset Nat
  notifiedPeople : Finset Nat
deriving DecidableEq

/-- The webhook payload: card body plus mention entities. -/
structure Message where
  body : List Block
  entities : List Mention
deriving DecidableEq

/-- The whole run up to (but excluding) delivery: process every project and
accumulate the card body, mention entities, notified merge-request iids and
notified people.  The first failing upstream call aborts everything. -/
def runBody (env : Env) : Except ErrBody RunOutput :=
  match runProjects env with
  | .error b => .error b
  | .ok prs =>
    .ok { body := headerBlocks env ++ (prs.map (fun pr => projectSection pr.1.name pr.2)).flatten
          entities := (prs.map (fun pr => (pr.2.map MRResult.mentionEntities).flatten)).flatten
          notifiedMrs := ((prs.map (fun pr => pr.2.map MRResult.iid)).flatten).toFinset
          notifiedPeople := unionAll ((prs.map (fun pr => pr.2.map MRResult.pending)).flatten) }

/-- The run including delivery: the list of webhook POSTs made (one message
when anyone is to be notified, none otherwise) and the printed summary. -/
def runDeliver (env : Env) : Except ErrBody (List Message × String) :=
  match runBody env with
  | .error b => .error b
  | .ok out =>
    let np := out.notifiedPeople.card
    let nm := out.notifiedMrs.card
    .ok (if 0 < np then [{ body := out.body, entities := out.entities }] else [],
         s!"Notified {np} people about {nm} MRs")

/-- All texts of a card body, the column-set contents flattened in place. -/
def blockTexts : List Block → List String
  | [] => []
  | Block.text tb :: rest => tb.text :: blockTexts rest
  | Block.columnSet tbs :: rest => tbs.map TextBlock.text ++ blockTexts rest

/-- The email `get_user_info` would resolve for a user id (none when the
lookup fails). -/
def resolvedEmail (env : Env) (id : Nat) : Option String :=
  match get_user_info env id with
  | .ok u => u.email
  | .error _ => none

/-- Whether a user id has a resolvable (truthy) email. -/
def emailResolvable (env : Env) (id : Nat) : Bool :=
  emailTruthy (resolvedEmail env id)

/-- The spec's step-5 notify-set: members of the escalated pending set that
have a resolvable email. -/
def notifySetFinal (env : Env) (pending : Finset Nat) : Finset Nat :=
  pending.filter (fun id => emailResolvable env id = true)

/-- The `UserInfo` a successful lookup yields (a default on failure). -/
def userInfoOf (env : Env) (id : Nat) : UserInfo :=
  match get_user_info env id with
  | .ok u => u
  | .error _ => { username := "", name := "", email := none }

/-- The mention entity a user id contributes when it is mentioned. -/
def entityOfId (env : Env) (id : Nat) : Mention :=
  entityOf (userInfoOf env id)

/-- The escalated pending set of one merge request, read off its responses
(the set the script computes just before rendering mentions). -/
def pendingOf (_env : Env) (m : MRData) : Finset Nat :=
  match m.discussionsResp, m.approvalsResp with
  | .ok ds, .ok aps =>
    escalate (pendingInit m.reviewerIds aps) (unresolvedAuthors ds) m.authorId
  | _, _ => ∅

/-- The non-draft merge requests of one project's (successful) listing. -/
def nonDraftMrs (p : ProjectData) : List MRData :=
  match p.mrsResp with
  | .ok mrs => mrs.filter (fun m => !m.draft)
  | .error _ => []

/-- All merge requests the run would iterate over: per project in order, the
non-draft merge requests of a successful listing. -/
def processedMrList (env : Env) : List MRData :=
  (env.projects.map nonDraftMrs).flatten

/-- Card-body texts of a run (empty when the run aborts). -/
def bodyTexts (env : Env) : List String :=
  match runBody env with
  | .ok out => blockTexts out.body
  | .error _ => []

/-- The accumulated `notified_people` of a run (empty when the run aborts). -/
def notifiedPeopleOf (env : Env) : Finset Nat :=
  match runBody env with
  | .ok out => out.notifiedPeople
  | .error _ => ∅

/-- The accumulated `notified_mrs` of a run (empty when the run aborts). -/
def notifiedMrsOf (env : Env) : Finset Nat :=
  match runBody env with
  | .ok out => out.notifiedMrs
  | .error _ => ∅

/-- The card body of a run (empty when the run aborts). -/
def bodyOf (env : Env) : List Block :=
  match runBody env with
  | .ok out => out.body
  | .error _ => []

/-- The mention entities of a run (empty when the run aborts). -/
def entitiesOf (env : Env) : List Mention :=
  match runBody env with
  | .ok out => out.entities
  | .error _ => []

/-- The webhook POSTs a run makes (none when it aborts). -/
def postsOf (env : Env) : List Message :=
  match runDeliver env with
  | .ok pr => pr.1
  | .error _ => []

/-- The mention entities `make_mentions` yields (empty on failure). -/
def mentionEntsOf (env : Env) (pending : Finset Nat) : List Mention :=
  match make_mentions env pending with
  | .ok pr => pr.2
  | .error _ => []

/-- A run that completed without any upstream failure. -/
abbrev runOk (env : Env) : Prop :=
  (runBody env).isOk = true

/-! ### Spec-side definitions (written from the specification's words) -/

/-- Modelled from the spec: an identity authored at least one note whose
resolved flag is present and false. -/
def SpecUnresolved (ds : List Discussion) (a : Nat) : Prop :=
  ∃ d ∈ ds, ∃ n ∈ d.notes, n.resolved = some false ∧ n.authorId = a

/-- Modelled from the spec: count weekdays by iterating calendar day by
calendar day, from the day after the last-updated timestamp through the
current day. -/
def specCalendarDays (now updated : Nat) : Nat :=
  ((Finset.range (now / 1440 - updated / 1440)).filter
    (fun k => (updated / 1440 + (k + 1)) % 7 < 5)).card

/-- Modelled from the spec: the staleness suffix driven by the calendar-day
weekday count. -/
def specCalendarLabel (now updated : Nat) : String :=
  if specCalendarDays now updated > 2 then
    " " ++ toString (specCalendarDays now updated) ++ " days old"
  else ""

/-- `b` is the body of some failing upstream response of the environment. -/
def IsUpstreamFailure (env : Env) (b : ErrBody) : Prop :=
  (∃ p ∈ env.projects, p.searchResp = .error b ∨ p.mrsResp = .error b ∨
    ∃ mrs, p.mrsResp = .ok mrs ∧ ∃ m ∈ mrs,
      m.discussionsResp = .error b ∨ m.approvalsResp = .error b) ∨
  ∃ id, env.userResp id = .error b

/-- Every project-level and merge-request-level call of the run succeeded. -/
def AllProjectCallsOk (env : Env) : Prop :=
  ∀ p ∈ env.projects, (∃ x, p.searchResp = .ok x) ∧
    ∃ mrs, p.mrsResp = .ok mrs ∧ ∀ m ∈ mrs, m.draft = false →
      (∃ ds, m.discussionsResp = .ok ds) ∧ (∃ aps, m.approvalsResp = .ok aps)

/-! ### Helper lemmas -/

theorem mem_sortedIds (s : Finset Nat) (a : Nat) : a ∈ sortedIds s ↔ a ∈ s := by
  simp only [sortedIds, List.mem_filter, List.mem_range, decide_eq_true_eq]
  constructor
  · exact fun h => h.2
  · intro h
    exact ⟨Nat.lt_succ_of_le (Finset.le_sup (f := id) h), h⟩

theorem mem_unresolvedAuthors (ds : List Discussion) (a : Nat) :
    a ∈ unresolvedAuthors ds ↔ SpecUnresolved ds a := by
  simp only [unresolvedAuthors, SpecUnresolved, List.mem_toFinset, List.mem_map,
    List.mem_filter, List.mem_flatten, beq_iff_eq]
  constructor
  · intro h
    obtain ⟨n, ⟨⟨notes, hnotes, hn⟩, hres⟩, ha⟩ := h
    obtain ⟨d, hd, hdn⟩ := hnotes
    subst hdn
    exact ⟨d, hd, n, hn, hres, ha⟩
  · intro h
    obtain ⟨d, hd, n, hn, hres, ha⟩ := h
    exact ⟨n, ⟨⟨d.notes, ⟨d, hd, rfl⟩, hn⟩, hres⟩, ha⟩

theorem mem_unionAll (l : List (Finset Nat)) (a : Nat) :
    a ∈ unionAll l ↔ ∃ s ∈ l, a ∈ s := by
  induction l with
  | nil => simp [unionAll]
  | cons s l ih =>
    simp only [unionAll, List.foldr_cons, Finset.mem_union, List.mem_cons]
    rw [show l.foldr (· ∪ ·) ∅ = unionAll l from rfl] at *
    constructor
    · rintro (h | h)
      · exact ⟨s, Or.inl rfl, h⟩
      · obtain ⟨t, ht, hat⟩ := ih.1 h
        exact ⟨t, Or.inr ht, hat⟩
    · rintro ⟨t, ht | ht, hat⟩
      · subst ht; exact Or.inl hat
      · exact Or.inr (ih.2 ⟨t, ht, hat⟩)

theorem escalate_ne_empty (pending unres : Finset Nat) (author : Nat) :
    escalate pending unres author ≠ ∅ := by
  unfold escalate
  split
  · exact Finset.insert_ne_empty _ _
  · rename_i h
    push_neg at h
    intro hcon
    exact h.2 (by rw [hcon]; rfl)

theorem blockTexts_append (a b : List Block) :
    blockTexts (a ++ b) = blockTexts a ++ blockTexts b := by
  induction a with
  | nil => simp [blockTexts]
  | cons x a ih =>
    cases x with
    | text tb => simp [blockTexts, ih]
    | columnSet tbs => simp [blockTexts, ih]

theorem mem_blockTexts_flatten :
    ∀ {L : List (List Block)} {s : List Block} {x : String},
      s ∈ L → x ∈ blockTexts s → x ∈ blockTexts L.flatten := by
  intro L
  induction L with
  | nil => intro s x hs _; cases hs
  | cons t L ih =>
    intro s x hs hx
    rw [List.flatten_cons, blockTexts_append, List.mem_append]
    rcases List.mem_cons.1 hs with hs | hs
    · subst hs; exact Or.inl hx
    · exact Or.inr (ih hs hx)

theorem mapME_ok_forall₂ {α β : Type} (f : α → Except ErrBody β) :
    ∀ {xs : List α} {ys : List β}, mapME f xs = .ok ys →
      List.Forall₂ (fun x y => f x = .ok y) xs ys := by
  intro xs
  induction xs with
  | nil =>
    intro ys h
    simp only [mapME] at h
    cases h
    exact List.Forall₂.nil
  | cons x xs ih =>
    intro ys h
    simp only [mapME] at h
    cases hfx : f x with
    | error b => rw [hfx] at h; simp at h
    | ok y =>
      rw [hfx] at h
      cases hm : mapME f xs with
      | error b => rw [hm] at h; simp at h
      | ok ys2 =>
        rw [hm] at h
        simp only [Except.ok.injEq] at h
        subst h
        exact List.Forall₂.cons hfx (ih hm)

theorem mapME_error_exists {α β : Type} (f : α → Except ErrBody β) :
    ∀ {xs : List α} {b : ErrBody}, mapME f xs = .error b →
      ∃ x ∈ xs, f x = .error b := by
  intro xs
  induction xs with
  | nil =>
    intro b h
    simp only [mapME] at h
    cases h
  | cons x xs ih =>
    intro b h
    simp only [mapME] at h
    cases hfx : f x with
    | error b2 =>
      rw [hfx] at h
      simp only [Except.error.injEq] at h
      subst h
      exact ⟨x, List.mem_cons_self x xs, hfx⟩
    | ok y =>
      rw [hfx] at h
      cases hm : mapME f xs with
      | error b2 =>
        rw [hm] at h
        simp only [Except.error.injEq] at h
        subst h
        obtain ⟨x2, hx2, hfx2⟩ := ih hm
        exact ⟨x2, List.mem_cons_of_mem x hx2, hfx2⟩
      | ok ys2 => rw [hm] at h; simp at h

theorem forall₂_mem_left {α β : Type} {R : α → β → Prop} :
    ∀ {xs : List α} {ys : List β}, List.Forall₂ R xs ys →
      ∀ {x : α}, x ∈ xs → ∃ y ∈ ys, R x y := by
  intro xs ys h
  induction h with
  | nil => intro x hx; cases hx
  | cons hR _ ih =>
    intro x hx
    rcases List.mem_cons.1 hx with hx | hx
    · subst hx
      exact ⟨_, List.mem_cons_self _ _, hR⟩
    · obtain ⟨y, hy, hRy⟩ := ih hx
      exact ⟨y, List.mem_cons_of_mem _ hy, hRy⟩

theorem forall₂_map_eq {α β γ : Type} {R : α → β → Prop} (g : β → γ) (h : α → γ)
    (hgh : ∀ a b, R a b → g b = h a) :
    ∀ {xs : List α} {ys : List β}, List.Forall₂ R xs ys → ys.map g = xs.map h := by
  intro xs ys hf
  induction hf with
  | nil => rfl
  | cons hR _ ih => simp [List.map_cons, ih, hgh _ _ hR]

theorem forall₂_nil_iff {α β : Type} {R : α → β → Prop} {xs : List α} {ys : List β}
    (h : List.Forall₂ R xs ys) : ys = [] ↔ xs = [] := by
  induction h with
  | nil => simp
  | cons _ _ _ => simp

theorem mapME_ok_of_mem {α β : Type} (f : α → Except ErrBody β) {xs : List α}
    {ys : List β} (h : mapME f xs = .ok ys) {x : α} (hx : x ∈ xs) :
    ∃ y ∈ ys, f x = .ok y :=
  forall₂_mem_left (mapME_ok_forall₂ f h) hx

theorem get_user_info_error {env : Env} {id : Nat} {b : ErrBody}
    (h : get_user_info env id = .error b) : env.userResp id = .error b := by
  unfold get_user_info at h
  cases hu : env.userResp id with
  | error b2 =>
    rw [hu] at h
    simp only [Except.error.injEq] at h
    subst h
    rfl
  | ok u => rw [hu] at h; simp at h

theorem make_mentions_error {env : Env} {s : Finset Nat} {b : ErrBody}
    (h : make_mentions env s = .error b) : ∃ id, env.userResp id = .error b := by
  unfold make_mentions at h
  cases hm : mapME (get_user_info env) (sortedIds s) with
  | error b2 =>
    rw [hm] at h
    simp only [Except.error.injEq] at h
    subst h
    obtain ⟨id, _, hid⟩ := mapME_error_exists _ hm
    exact ⟨id, get_user_info_error hid⟩
  | ok users => rw [hm] at h; simp at h

theorem processMR_ok_spec {env : Env} {m : MRData} {r : MRResult}
    (h : processMR env m = .ok r) :
    r.pending = pendingOf env m ∧
    r.titleBlock = { text := mrTitleString env m, separator := false, bold := true } ∧
    r.iid = m.iid ∧
    (∃ ds, m.discussionsResp = .ok ds) ∧ (∃ aps, m.approvalsResp = .ok aps) := by
  cases hds : m.discussionsResp with
  | error b => simp [processMR, hds] at h
  | ok ds =>
    cases haps : m.approvalsResp with
    | error b => simp [processMR, hds, haps] at h
    | ok aps =>
      cases hmm : make_mentions env (escalate (pendingInit m.reviewerIds aps) (unresolvedAuthors ds) m.authorId) with
      | error b => simp [processMR, hds, haps, hmm] at h
      | ok mp =>
        simp only [processMR, hds, haps, hmm, Except.ok.injEq] at h
        subst h
        refine ⟨?_, rfl, rfl, ⟨ds, rfl⟩, ⟨aps, rfl⟩⟩
        simp [pendingOf, hds, haps]

theorem processMR_error {env : Env} {m : MRData} {b : ErrBody}
    (h : processMR env m = .error b) :
    m.discussionsResp = .error b ∨ m.approvalsResp = .error b ∨
      ∃ id, env.userResp id = .error b := by
  cases hds : m.discussionsResp with
  | error b2 =>
    simp only [processMR, hds, Except.error.injEq] at h
    subst h
    exact Or.inl rfl
  | ok ds =>
    cases haps : m.approvalsResp with
    | error b2 =>
      simp only [processMR, hds, haps, Except.error.injEq] at h
      subst h
      exact Or.inr (Or.inl rfl)
    | ok aps =>
      cases hmm : make_mentions env (escalate (pendingInit m.reviewerIds aps) (unresolvedAuthors ds) m.authorId) with
      | error b2 =>
        simp only [processMR, hds, haps, hmm, Except.error.injEq] at h
        subst h
        exact Or.inr (Or.inr (make_mentions_error hmm))
      | ok mp => simp [processMR, hds, haps, hmm] at h

theorem processProject_ok {env : Env} {p : ProjectData} {rs : List MRResult}
    (h : processProject env p = .ok rs) :
    (∃ x, p.searchResp = .ok x) ∧
    ∃ mrs, p.mrsResp = .ok mrs ∧
      mapME (processMR env) (mrs.filter (fun m => !m.draft)) = .ok rs := by
  cases hs : p.searchResp with
  | error b => simp [processProject, hs] at h
  | ok x =>
    cases hm : p.mrsResp with
    | error b => simp [processProject, hs, hm] at h
    | ok mrs =>
      simp only [processProject, hs, hm] at h
      exact ⟨⟨x, rfl⟩, mrs, rfl, h⟩

theorem processProject_error {env : Env} {p : ProjectData} {b : ErrBody}
    (h : processProject env p = .error b) :
    p.searchResp = .error b ∨ p.mrsResp = .error b ∨
      ∃ mrs, p.mrsResp = .ok mrs ∧
        ∃ m ∈ mrs.filter (fun m => !m.draft), processMR env m = .error b := by
  cases hs : p.searchResp with
  | error b2 =>
    simp only [processProject, hs, Except.error.injEq] at h
    subst h
    exact Or.inl rfl
  | ok x =>
    cases hm : p.mrsResp with
    | error b2 =>
      simp only [processProject, hs, hm, Except.error.injEq] at h
      subst h
      exact Or.inr (Or.inl rfl)
    | ok mrs =>
      simp only [processProject, hs, hm] at h
      obtain ⟨m, hmem, hf⟩ := mapME_error_exists _ h
      exact Or.inr (Or.inr ⟨mrs, rfl, m, hmem, hf⟩)

theorem runProjects_ok {env : Env} {prs : List (ProjectData × List MRResult)}
    (h : runProjects env = .ok prs) :
    List.Forall₂ (fun p pr => pr.1 = p ∧ processProject env p = .ok pr.2)
      env.projects prs := by
  have h2 := mapME_ok_forall₂ _ h
  refine h2.imp ?_
  intro p pr hppr
  cases hpp : processProject env p with
  | error b => simp only [hpp] at hppr; simp at hppr
  | ok rs =>
    simp only [hpp] at hppr
    simp only [Except.ok.injEq] at hppr
    subst hppr
    exact ⟨rfl, rfl⟩

theorem runProjects_error {env : Env} {b : ErrBody}
    (h : runProjects env = .error b) : IsUpstreamFailure env b := by
  obtain ⟨p, hp, hf⟩ := mapME_error_exists _ h
  have hpe : processProject env p = .error b := by
    cases hpp : processProject env p with
    | error b2 => rw [hpp] at hf; simp only [Except.error.injEq] at hf; subst hf; rfl
    | ok rs => rw [hpp] at hf; simp at hf
  rcases processProject_error hpe with hs | hm | ⟨mrs, hmrs, m, hmem, hmf⟩
  · exact Or.inl ⟨p, hp, Or.inl hs⟩
  · exact Or.inl ⟨p, hp, Or.inr (Or.inl hm)⟩
  · rcases processMR_error hmf with hd | ha | hu
    · exact Or.inl ⟨p, hp, Or.inr (Or.inr ⟨mrs, hmrs, m, (List.mem_filter.1 hmem).1, Or.inl hd⟩)⟩
    · exact Or.inl ⟨p, hp, Or.inr (Or.inr ⟨mrs, hmrs, m, (List.mem_filter.1 hmem).1, Or.inr ha⟩)⟩
    · exact Or.inr hu

theorem runBody_error {env : Env} {b : ErrBody}
    (h : runBody env = .error b) :
    runDeliver env = .error b ∧ IsUpstreamFailure env b := by
  constructor
  · simp [runDeliver, h]
  · cases hrp : runProjects env with
    | error b2 =>
      simp only [runBody, hrp, Except.error.injEq] at h
      subst h
      exact runProjects_error hrp
    | ok prs => simp [runBody, hrp] at h

theorem runBody_ok_fields {env : Env} {out : RunOutput}
    (h : runBody env = .ok out) :
    ∃ prs, runProjects env = .ok prs ∧
      out.body = headerBlocks env ++ (prs.map (fun pr => projectSection pr.1.name pr.2)).flatten ∧
      out.entities = (prs.map (fun pr => (pr.2.map MRResult.mentionEntities).flatten)).flatten ∧
      out.notifiedMrs = ((prs.map (fun pr => pr.2.map MRResult.iid)).flatten).toFinset ∧
      out.notifiedPeople = unionAll ((prs.map (fun pr => pr.2.map MRResult.pending)).flatten) := by
  cases hrp : runProjects env with
  | error b => simp [runBody, hrp] at h
  | ok prs =>
    simp only [runBody, hrp, Except.ok.injEq] at h
    subst h
    exact ⟨prs, rfl, rfl, rfl, rfl, rfl⟩

theorem forall₂_mem_right {α β : Type} {R : α → β → Prop} :
    ∀ {xs : List α} {ys : List β}, List.Forall₂ R xs ys →
      ∀ {y : β}, y ∈ ys → ∃ x ∈ xs, R x y := by
  intro xs ys h
  induction h with
  | nil => intro y hy; cases hy
  | cons hR _ ih =>
    intro y hy
    rcases List.mem_cons.1 hy with hy | hy
    · subst hy
      exact ⟨_, List.mem_cons_self _ _, hR⟩
    · obtain ⟨x, hx, hRx⟩ := ih hy
      exact ⟨x, List.mem_cons_of_mem _ hx, hRx⟩

theorem run_processed {env : Env} {out : RunOutput} {p : ProjectData}
    {mrs : List MRData} {m : MRData}
    (hrun : runBody env = .ok out) (hp : p ∈ env.projects)
    (hmrs : p.mrsResp = .ok mrs) (hm : m ∈ mrs) (hdraft : m.draft = false) :
    ∃ r, processMR env m = .ok r ∧ r.titleBlock.text ∈ blockTexts out.body ∧
      (∀ u, u ∈ r.pending → u ∈ out.notifiedPeople) ∧ r.iid ∈ out.notifiedMrs := by
  obtain ⟨prs, hrp, hbody, hents, hmrsF, hpeople⟩ := runBody_ok_fields hrun
  have hf₂ := runProjects_ok hrp
  obtain ⟨pr, hprmem, hpr1, hpr2⟩ := forall₂_mem_left hf₂ hp
  obtain ⟨hsearch, mrs2, hmrs2, hmap⟩ := processProject_ok hpr2
  rw [hmrs] at hmrs2
  have hmrs2e : mrs = mrs2 := Except.ok.inj hmrs2
  subst hmrs2e
  have hmF : m ∈ mrs.filter (fun m => !m.draft) :=
    List.mem_filter.2 ⟨hm, by simp [hdraft]⟩
  obtain ⟨r, hrmem, hr⟩ := mapME_ok_of_mem _ hmap hmF
  refine ⟨r, hr, ?_, ?_, ?_⟩
  · rw [hbody, blockTexts_append]
    refine List.mem_append_right _ ?_
    have hsec : projectSection pr.1.name pr.2 ∈
        prs.map (fun pr => projectSection pr.1.name pr.2) :=
      List.mem_map_of_mem _ hprmem
    refine mem_blockTexts_flatten hsec ?_
    have hpb : r.titleBlock ∈ (pr.2.map mrBlocks).flatten := by
      refine List.mem_flatten.2 ⟨mrBlocks r, List.mem_map_of_mem _ hrmem, ?_⟩
      simp [mrBlocks]
    have hpbne : (pr.2.map mrBlocks).flatten ≠ [] := List.ne_nil_of_mem hpb
    simp only [projectSection]
    rw [if_neg hpbne]
    simp only [blockTexts, List.mem_cons, List.append_nil]
    exact Or.inr (Or.inr (List.mem_map_of_mem _ hpb))
  · intro u hu
    rw [hpeople]
    refine (mem_unionAll _ _).2 ⟨r.pending, ?_, hu⟩
    exact List.mem_flatten.2 ⟨pr.2.map MRResult.pending,
      List.mem_map_of_mem _ hprmem, List.mem_map_of_mem _ hrmem⟩
  · rw [hmrsF]
    refine List.mem_toFinset.2 ?_
    exact List.mem_flatten.2 ⟨pr.2.map MRResult.iid,
      List.mem_map_of_mem _ hprmem, List.mem_map_of_mem _ hrmem⟩

theorem run_notifiedMrs {env : Env} {out : RunOutput} (hrun : runBody env = .ok out) :
    out.notifiedMrs = ((processedMrList env).map MRData.iid).toFinset := by
  obtain ⟨prs, hrp, _, _, hmrsF, _⟩ := runBody_ok_fields hrun
  rw [hmrsF]
  have hf₂ := runProjects_ok hrp
  have hmap : prs.map (fun pr => pr.2.map MRResult.iid) =
      env.projects.map (fun p => (nonDraftMrs p).map MRData.iid) := by
    refine forall₂_map_eq _ _ ?_ hf₂
    intro p pr hR
    obtain ⟨hpr1, hpr2⟩ := hR
    obtain ⟨_, mrs, hmrs, hmapok⟩ := processProject_ok hpr2
    have hf₂2 := mapME_ok_forall₂ _ hmapok
    have hiid : pr.2.map MRResult.iid = (mrs.filter (fun m => !m.draft)).map MRData.iid := by
      refine forall₂_map_eq _ _ ?_ hf₂2
      intro m r hmr
      exact (processMR_ok_spec hmr).2.2.1
    rw [hiid, nonDraftMrs, hmrs]
  rw [hmap, processedMrList, List.map_flatten, List.map_map]
  rfl

theorem pendingOf_ne_empty {env : Env} {m : MRData} {ds : List Discussion}
    {aps : List Nat} (hds : m.discussionsResp = .ok ds)
    (haps : m.approvalsResp = .ok aps) : pendingOf env m ≠ ∅ := by
  simp only [pendingOf, hds, haps]
  exact escalate_ne_empty _ _ _

theorem run_people_empty_iff {env : Env} {out : RunOutput}
    (hrun : runBody env = .ok out) :
    out.notifiedPeople = ∅ ↔
      ∀ p ∈ env.projects, ∀ mrs, p.mrsResp = .ok mrs →
        mrs.filter (fun m => !m.draft) = [] := by
  obtain ⟨prs, hrp, _, _, _, hpeople⟩ := runBody_ok_fields hrun
  have hf₂ := runProjects_ok hrp
  constructor
  · intro hempty p hp mrs hmrs
    by_contra hne
    obtain ⟨m, hmF⟩ := List.exists_mem_of_ne_nil _ hne
    have hm := (List.mem_filter.1 hmF).1
    have hdraft : m.draft = false := by
      have h2 := (List.mem_filter.1 hmF).2
      simpa using h2
    obtain ⟨r, hr, _, hsub, _⟩ := run_processed hrun hp hmrs hm hdraft
    have hspec := processMR_ok_spec hr
    obtain ⟨ds, hds⟩ := hspec.2.2.2.1
    obtain ⟨aps, haps⟩ := hspec.2.2.2.2
    have hne2 : r.pending ≠ ∅ := by
      rw [hspec.1]
      exact pendingOf_ne_empty hds haps
    obtain ⟨u, hu⟩ := Finset.nonempty_iff_ne_empty.2 hne2
    have hin := hsub u hu
    rw [hempty] at hin
    exact absurd hin (Finset.not_mem_empty u)
  · intro hall
    rw [hpeople]
    have hprs : ∀ pr ∈ prs, pr.2 = ([] : List MRResult) := by
      intro pr hpr
      obtain ⟨p, hp, hpr1, hpr2⟩ := forall₂_mem_right hf₂ hpr
      obtain ⟨_, mrs, hmrs, hmapok⟩ := processProject_ok hpr2
      rw [hall p hp mrs hmrs] at hmapok
      simp only [mapME, Except.ok.injEq] at hmapok
      exact hmapok.symm
    have hflat : (prs.map (fun pr => pr.2.map MRResult.pending)).flatten = [] := by
      rw [List.flatten_eq_nil_iff]
      intro l hl
      obtain ⟨pr, hpr, hprl⟩ := List.mem_map.1 hl
      rw [← hprl, hprs pr hpr]
      rfl
    rw [hflat]
    rfl

theorem usersFilterMap {env : Env} :
    ∀ {ids : List Nat} {users : List UserInfo},
      List.Forall₂ (fun id u => get_user_info env id = .ok u) ids users →
      (users.filter (fun u => emailTruthy u.email)).map entityOf =
        (ids.filter (fun id => emailResolvable env id)).map (entityOfId env) := by
  intro ids users h
  induction h with
  | nil => rfl
  | cons hR hrest ih =>
    rename_i id u ids2 users2
    have he : emailTruthy u.email = emailResolvable env id := by
      simp [emailResolvable, resolvedEmail, hR]
    have hent : entityOf u = entityOfId env id := by
      simp [entityOfId, userInfoOf, hR]
    simp only [List.filter_cons]
    rw [← he]
    cases hb : emailTruthy u.email
    · simpa using ih
    · simp [hent, ih]

theorem make_mentions_ok_ents {env : Env} {s : Finset Nat} {tb : TextBlock}
    {ents : List Mention} (h : make_mentions env s = .ok (tb, ents)) :
    ents = ((sortedIds s).filter (fun id => emailResolvable env id)).map (entityOfId env) := by
  cases hm : mapME (get_user_info env) (sortedIds s) with
  | error b => simp [make_mentions, hm] at h
  | ok users =>
    simp only [make_mentions, hm, Except.ok.injEq, Prod.mk.injEq] at h
    rw [← h.2]
    exact usersFilterMap (mapME_ok_forall₂ _ hm)

theorem staleDays_eq_specCalendar (now updated : Nat)
    (h : updated % 1440 ≤ now % 1440) :
    staleDays now updated = specCalendarDays now updated := by
  unfold staleDays specCalendarDays
  have hn : (now - updated) / 1440 = now / 1440 - updated / 1440 := by omega
  rw [hn]
  have hpred : ∀ x ∈ Finset.range (now / 1440 - updated / 1440),
      (weekday (updated + 1440 * (x + 1)) < 5) ↔
        ((updated / 1440 + (x + 1)) % 7 < 5) := by
    intro x _
    have hdiv : (updated + 1440 * (x + 1)) / 1440 = updated / 1440 + (x + 1) := by
      omega
    rw [weekday, hdiv]
  rw [Finset.filter_congr hpred]

/-! ### Concrete environments used by witnesses and counterexamples -/

/-- A small user directory: 1 has a public email, 2 has no name and no email,
3 has an empty public email but an override entry, 7 has a public email. -/
def userTable : Nat → Except ErrBody UserData := fun id =>
  if id = 1 then .ok { username := "alice", name := "Alice", publicEmail := some "alice@x.com" }
  else if id = 2 then .ok { username := "bob", name := "", publicEmail := none }
  else if id = 3 then .ok { username := "carol", name := "Carol", publicEmail := some "" }
  else if id = 7 then .ok { username := "dave", name := "Dave", publicEmail := some "dave@x.com" }
  else .error "user not found"

/-- The `USER_EMAILS` override used by the sample runs. -/
def overridesG : List (String × String) := [("carol", "carol@x.com")]

/-- Discussions with one unresolved note by 2 and one flagless note by 1. -/
def dsA : List Discussion :=
  [{ notes := [{ authorId := 2, resolved := some false },
               { authorId := 1, resolved := none }] }]

/-- A merge request authored by 1, reviewers 2 and 3, approved by 3. -/
def mrA : MRData :=
  { iid := 5, title := "T1", webUrl := "U1", authorId := 1, draft := false,
    updatedAt := 720, reviewerIds := [2, 3],
    discussionsResp := .ok dsA, approvalsResp := .ok [3] }

/-- The project carrying `mrA`. -/
def pG : ProjectData :=
  { name := "proj1", searchResp := .ok (some 10), mrsResp := .ok [mrA] }

/-- A healthy run over one project, updated Monday noon, now Thursday noon. -/
def envG : Env :=
  { projects := [pG], userResp := userTable, userEmails := overridesG, now := 5040 }

/-- Discussions whose only unresolved note is by the author 7 themselves. -/
def dsB : List Discussion :=
  [{ notes := [{ authorId := 7, resolved := some false }] }]

/-- A merge request whose author 7 authored an unresolved note. -/
def mrB : MRData :=
  { iid := 9, title := "T2", webUrl := "U2", authorId := 7, draft := false,
    updatedAt := 0, reviewerIds := [],
    discussionsResp := .ok dsB, approvalsResp := .ok [] }

/-- The run whose author is their own unresolved-discussion author. -/
def envB : Env :=
  { projects := [{ name := "proj2", searchResp := .ok (some 11), mrsResp := .ok [mrB] }],
    userResp := userTable, userEmails := [], now := 0 }

/-- A merge request updated Monday 23:00 (minute 1380). -/
def mrC3 : MRData :=
  { iid := 3, title := "T3", webUrl := "U3", authorId := 1, draft := false,
    updatedAt := 1380, reviewerIds := [],
    discussionsResp := .ok [], approvalsResp := .ok [] }

/-- A run whose clock reads Thursday 01:00 (minute 4380). -/
def envC3 : Env :=
  { projects := [{ name := "proj3", searchResp := .ok (some 13), mrsResp := .ok [mrC3] }],
    userResp := userTable, userEmails := [], now := 4380 }

/-- A merge request whose only notify candidate (its author 2) has no email. -/
def mrD : MRData :=
  { iid := 4, title := "T4", webUrl := "U4", authorId := 2, draft := false,
    updatedAt := 0, reviewerIds := [],
    discussionsResp := .ok [], approvalsResp := .ok [] }

/-- The project carrying `mrD`. -/
def pD : ProjectData :=
  { name := "proj4", searchResp := .ok (some 12), mrsResp := .ok [mrD] }

/-- A run in which nobody in the pending set has a resolvable email. -/
def envD : Env :=
  { projects := [pD], userResp := userTable, userEmails := [], now := 0 }

/-- A merge request whose lone reviewer already approved. -/
def mrE : MRData :=
  { iid := 6, title := "T5", webUrl := "U5", authorId := 1, draft := false,
    updatedAt := 0, reviewerIds := [3],
    discussionsResp := .ok [], approvalsResp := .ok [3] }

/-- A run whose very first upstream call fails. -/
def envBad : Env :=
  { projects := [{ name := "proj9", searchResp := .error "boom", mrsResp := .ok [] }],
    userResp := fun _ => .error "no user", userEmails := [], now := 0 }

/-- First of two merge requests in different projects sharing iid 77. -/
def mrF1 : MRData :=
  { iid := 77, title := "TA", webUrl := "UA", authorId := 1, draft := false,
    updatedAt := 0, reviewerIds := [],
    discussionsResp := .ok [], approvalsResp := .ok [] }

/-- Second of two merge requests in different projects sharing iid 77. -/
def mrF2 : MRData :=
  { iid := 77, title := "TB", webUrl := "UB", authorId := 1, draft := false,
    updatedAt := 0, reviewerIds := [],
    discussionsResp := .ok [], approvalsResp := .ok [] }

/-- A run over two projects whose merge requests share the same iid. -/
def envF : Env :=
  { projects := [{ name := "pa", searchResp := .ok (some 1), mrsResp := .ok [mrF1] },
                 { name := "pb", searchResp := .ok (some 2), mrsResp := .ok [mrF2] }],
    userResp := userTable, userEmails := overridesG, now := 0 }

theorem mem_processedMrList (env : Env) (m : MRData) :
    m ∈ processedMrList env ↔
      ∃ p ∈ env.projects, ∃ mrs, p.mrsResp = .ok mrs ∧ m ∈ mrs ∧ m.draft = false := by
  simp only [processedMrList, List.mem_flatten, List.mem_map]
  constructor
  · rintro ⟨l, ⟨p, hp, rfl⟩, hml⟩
    cases hmrs : p.mrsResp with
    | error b =>
      simp only [nonDraftMrs, hmrs] at hml
      cases hml
    | ok mrs =>
      simp only [nonDraftMrs, hmrs] at hml
      have h2 := List.mem_filter.1 hml
      exact ⟨p, hp, mrs, hmrs, h2.1, by simpa using h2.2⟩
  · rintro ⟨p, hp, mrs, hmrs, hm, hdraft⟩
    refine ⟨nonDraftMrs p, ⟨p, hp, rfl⟩, ?_⟩
    simp only [nonDraftMrs, hmrs]
    exact List.mem_filter.2 ⟨hm, by simp [hdraft]⟩

theorem runOk_exists {env : Env} (hok : runOk env) :
    ∃ out, runBody env = .ok out := by
  cases hr : runBody env with
  | error b =>
    rw [runOk, hr] at hok
    simp [Except.isOk, Except.toBool] at hok
  | ok out => exact ⟨out, rfl⟩

/-! ### Claim theorems -/

/-- Claim C1: for every merge request, with pending initialised to reviewers
minus approvers and the unresolved-discussion-author set containing exactly
the identities that authored at least one note whose resolved flag is present
and false (a flagless note contributes nothing), the evaluator removes the
unresolved authors from pending and then adds the merge request's author
precisely when that set is non-empty or pending is empty, and leaves pending
unchanged otherwise. -/
theorem c1_escalation_transform (env : Env) (m : MRData) (ds : List Discussion)
    (aps : List Nat) (hds : m.discussionsResp = .ok ds)
    (haps : m.approvalsResp = .ok aps) :
    (∀ a, a ∈ unresolvedAuthors ds ↔ SpecUnresolved ds a) ∧
    (∀ r, processMR env m = .ok r → r.pending = pendingOf env m) ∧
    pendingOf env m =
      (if unresolvedAuthors ds ≠ ∅ ∨ pendingInit m.reviewerIds aps = ∅ then
        insert m.authorId (pendingInit m.reviewerIds aps \ unresolvedAuthors ds)
      else pendingInit m.reviewerIds aps) := by
  refine ⟨fun a => mem_unresolvedAuthors ds a,
    fun r hr => (processMR_ok_spec hr).1, ?_⟩
  simp only [pendingOf, hds, haps, escalate]
  have hcond : (0 < (unresolvedAuthors ds).card ∨
      (pendingInit m.reviewerIds aps).card = 0) ↔
      (unresolvedAuthors ds ≠ ∅ ∨ pendingInit m.reviewerIds aps = ∅) := by
    rw [Finset.card_pos, Finset.nonempty_iff_ne_empty, Finset.card_eq_zero]
  rw [if_congr hcond rfl rfl]

/-- Claim C1 witness: the transform evaluated on a concrete merge request with
reviewers 2 and 3, approver 3, and an unresolved note by 2. -/
theorem c1_escalation_transform_witness :
    (∀ a, a ∈ unresolvedAuthors dsA ↔ SpecUnresolved dsA a) ∧
    (∀ r, processMR envG mrA = .ok r → r.pending = pendingOf envG mrA) ∧
    pendingOf envG mrA =
      (if unresolvedAuthors dsA ≠ ∅ ∨ pendingInit mrA.reviewerIds [3] = ∅ then
        insert mrA.authorId (pendingInit mrA.reviewerIds [3] \ unresolvedAuthors dsA)
      else pendingInit mrA.reviewerIds [3]) :=
  c1_escalation_transform envG mrA dsA [3] rfl rfl

/-- Claim C2 counterexample: in `envB` the author 7 authored an unresolved
note, so 7 belongs to the unresolved-discussion-author set, which is
non-empty; yet 7 is in the final pending set, in the email-filtered
notify-set, and among the notified people — contradicting the claim that
every member of the unresolved set is removed and never notified. -/
theorem c2_counterexample :
    unresolvedAuthors dsB ≠ ∅ ∧ mrB.authorId ∈ unresolvedAuthors dsB ∧
    mrB.authorId ∈ pendingOf envB mrB ∧
    mrB.authorId ∈ notifySetFinal envB (pendingOf envB mrB) ∧
    mrB.authorId ∈ notifiedPeopleOf envB := by decide

/-- Claim C2 amended: for every merge request whose
unresolved-discussion-author set is non-empty, every member of that set other
than the merge request's author is removed from the final pending set and is
absent from the email-filtered notify-set, while the author is always in the
final pending set (and in the notify-set whenever their email resolves). -/
theorem c2_amended (env : Env) (m : MRData) (ds : List Discussion)
    (aps : List Nat) (hds : m.discussionsResp = .ok ds)
    (haps : m.approvalsResp = .ok aps)
    (hne : unresolvedAuthors ds ≠ ∅) :
    (∀ r, processMR env m = .ok r → r.pending = pendingOf env m) ∧
    m.authorId ∈ pendingOf env m ∧
    (∀ u ∈ unresolvedAuthors ds, u ≠ m.authorId →
      u ∉ pendingOf env m ∧ u ∉ notifySetFinal env (pendingOf env m)) ∧
    (emailResolvable env m.authorId = true →
      m.authorId ∈ notifySetFinal env (pendingOf env m)) := by
  have hpend : pendingOf env m =
      insert m.authorId (pendingInit m.reviewerIds aps \ unresolvedAuthors ds) := by
    simp only [pendingOf, hds, haps, escalate]
    rw [if_pos]
    exact Or.inl (Finset.card_pos.2 (Finset.nonempty_iff_ne_empty.2 hne))
  have hauthor : m.authorId ∈ pendingOf env m := by
    rw [hpend]
    exact Finset.mem_insert_self _ _
  refine ⟨fun r hr => (processMR_ok_spec hr).1, hauthor, ?_, ?_⟩
  · intro u hu hne2
    have hnotp : u ∉ pendingOf env m := by
      rw [hpend]
      simp only [Finset.mem_insert, Finset.mem_sdiff, not_or]
      exact ⟨hne2, fun hc => hc.2 hu⟩
    exact ⟨hnotp, fun hc => hnotp (Finset.mem_filter.1 hc).1⟩
  · intro hres
    exact Finset.mem_filter.2 ⟨hauthor, hres⟩

/-- Claim C2 amended witness: the amended statement evaluated on `envB`,
whose unresolved set is the non-empty `{7}`. -/
theorem c2_amended_witness :
    (∀ r, processMR envB mrB = .ok r → r.pending = pendingOf envB mrB) ∧
    mrB.authorId ∈ pendingOf envB mrB ∧
    (∀ u ∈ unresolvedAuthors dsB, u ≠ mrB.authorId →
      u ∉ pendingOf envB mrB ∧ u ∉ notifySetFinal envB (pendingOf envB mrB)) ∧
    (emailResolvable envB mrB.authorId = true →
      mrB.authorId ∈ notifySetFinal envB (pendingOf envB mrB)) :=
  c2_amended envB mrB dsB [] rfl rfl (by decide)

/-- Claim C3 counterexample: last-updated Monday 23:00 (minute 1380) and now
Thursday 01:00 (minute 4380).  Iterating calendar days from the day after
last-updated through the current day gives 3 weekdays (Tue, Wed, Thu), so the
claim requires the label "3 days old"; but the script iterates only
`(now - updated).days = 2` whole 24-hour steps and attaches no label: the
rendered title of this merge request carries no staleness suffix. -/
theorem c3_counterexample :
    weekday 1380 = 0 ∧ weekday 4380 = 3 ∧ specCalendarDays 4380 1380 = 3 ∧
    staleDays 4380 1380 = 2 ∧ staleLabel 4380 1380 = "" ∧
    mrTitleString envC3 mrC3 = "[T3](U3)" := by decide

/-- Claim C3 amended: the label is attached iff the script's weekday count
(over `(now - updated).days` whole 24-hour steps) exceeds 2; whenever the
current time-of-day is at least the last-updated time-of-day, that count
equals the calendar-day weekday count from the day after last-updated through
the current day, so the claimed rule (including the Monday→Thursday "3 days
old" and Friday→Monday no-label examples at equal times) holds. -/
theorem c3_amended (now updated : Nat) (h : updated % 1440 ≤ now % 1440) :
    staleLabel now updated = specCalendarLabel now updated ∧
    (staleLabel now updated ≠ "" ↔ staleDays now updated > 2) := by
  have heq := staleDays_eq_specCalendar now updated h
  constructor
  · unfold staleLabel specCalendarLabel
    rw [heq]
  · unfold staleLabel
    constructor
    · intro hne
      by_contra hc
      rw [if_neg hc] at hne
      exact hne rfl
    · intro hgt
      rw [if_pos hgt]
      intro hcon
      have hlen := congrArg String.length hcon
      simp [String.length_append] at hlen
      exact absurd hlen.2 (by decide)

/-- Claim C3 amended witness: Monday noon (720) to Thursday noon (5040)
satisfies the time-of-day hypothesis and yields the label " 3 days old";
Friday noon (6480) to Monday noon (10800) yields no label. -/
theorem c3_amended_witness :
    (staleLabel 5040 720 = specCalendarLabel 5040 720 ∧
      (staleLabel 5040 720 ≠ "" ↔ staleDays 5040 720 > 2)) ∧
    staleLabel 5040 720 = " 3 days old" ∧ staleLabel 10800 6480 = "" :=
  ⟨c3_amended 5040 720 (by decide), by decide, by decide⟩

/-- Claim C4 counterexample: in `envD` the only candidate of the merge
request's escalated pending set (its author 2) has no resolvable email, so
the spec's step-5 notify-set is empty; yet the merge request's title block
appears in the card body and the webhook POST is still made. -/
theorem c4_counterexample :
    notifySetFinal envD (pendingOf envD mrD) = ∅ ∧
    mrTitleString envD mrD ∈ bodyTexts envD ∧
    postsOf envD ≠ [] := by decide

/-- Claim C4 amended: a merge request is included in the outgoing report iff
its escalation-step pending set is non-empty; the escalation rule makes that
set always non-empty, so every open non-draft merge request of a completed
run appears in the card body — even when its email-filtered (step-5)
notify-set is empty. -/
theorem c4_amended (env : Env) (p : ProjectData) (mrs : List MRData) (m : MRData)
    (hok : runOk env) (hp : p ∈ env.projects) (hmrs : p.mrsResp = .ok mrs)
    (hm : m ∈ mrs) (hdraft : m.draft = false) :
    mrTitleString env m ∈ bodyTexts env ∧ pendingOf env m ≠ ∅ := by
  obtain ⟨out, hout⟩ := runOk_exists hok
  obtain ⟨r, hr, htitle, _, _⟩ := run_processed hout hp hmrs hm hdraft
  have hspec := processMR_ok_spec hr
  constructor
  · have htext : r.titleBlock.text = mrTitleString env m := by rw [hspec.2.1]
    simp only [bodyTexts, hout]
    rw [← htext]
    exact htitle
  · obtain ⟨ds, hds⟩ := hspec.2.2.2.1
    obtain ⟨aps, haps⟩ := hspec.2.2.2.2
    exact pendingOf_ne_empty hds haps

/-- Claim C4 amended witness: the amended statement evaluated on `envD`, the
run whose merge request has an empty email-filtered notify-set. -/
theorem c4_amended_witness :
    mrTitleString envD mrD ∈ bodyTexts envD ∧ pendingOf envD mrD ≠ ∅ :=
  c4_amended envD pD [mrD] mrD (by decide) (by decide) rfl (by decide) rfl

/-- Claim C5: for every merge request whose initial pending set (reviewers
minus approvers) is empty and whose unresolved-discussion-author set is
empty, the escalated notify-set is exactly the singleton of the author. -/
theorem c5_author_singleton (env : Env) (m : MRData) (ds : List Discussion)
    (aps : List Nat) (hds : m.discussionsResp = .ok ds)
    (haps : m.approvalsResp = .ok aps)
    (hpe : pendingInit m.reviewerIds aps = ∅)
    (hue : unresolvedAuthors ds = ∅) :
    (∀ r, processMR env m = .ok r → r.pending = pendingOf env m) ∧
    pendingOf env m = {m.authorId} := by
  refine ⟨fun r hr => (processMR_ok_spec hr).1, ?_⟩
  simp only [pendingOf, hds, haps, escalate, hpe, hue]
  simp

/-- Claim C5 witness: a merge request whose lone reviewer approved and whose
discussions are empty notifies exactly its author. -/
theorem c5_author_singleton_witness :
    (∀ r, processMR envG mrE = .ok r → r.pending = pendingOf envG mrE) ∧
    pendingOf envG mrE = {mrE.authorId} :=
  c5_author_singleton envG mrE [] [3] rfl rfl (by decide) (by decide)

/-- Claim C6: the initial pending set is exactly the set difference of
reviewers and approvers; in particular, when every reviewer has approved,
pending starts empty. -/
theorem c6_pending_sdiff (reviewers approvers : List Nat) :
    (∀ a, a ∈ pendingInit reviewers approvers ↔ (a ∈ reviewers ∧ a ∉ approvers)) ∧
    ((∀ x ∈ reviewers, x ∈ approvers) → pendingInit reviewers approvers = ∅) := by
  constructor
  · intro a
    simp [pendingInit, Finset.mem_sdiff, List.mem_toFinset]
  · intro hsub
    rw [pendingInit, Finset.sdiff_eq_empty_iff_subset]
    intro a ha
    exact List.mem_toFinset.2 (hsub a (List.mem_toFinset.1 ha))

/-- Claim C6 witness: the superset case evaluated on concrete lists, and the
membership characterisation at a concrete element. -/
theorem c6_pending_sdiff_witness :
    pendingInit [1, 2] [2, 1, 5] = ∅ ∧
    ((3 : Nat) ∈ pendingInit [3, 4] [4] ↔ (3 ∈ [3, 4] ∧ 3 ∉ ([4] : List Nat))) :=
  ⟨(c6_pending_sdiff [1, 2] [2, 1, 5]).2 (by decide),
   (c6_pending_sdiff [3, 4] [4]).1 3⟩

/-- Claim C7: when any upstream response the run consults fails, the whole
run (delivery included) aborts with exactly that response body — which is the
body of some failing upstream response — so no webhook POST and no summary
are produced; and conversely a run that completes consulted only succeeding
project-level and merge-request-level calls. -/
theorem c7_fatal_abort (env : Env) :
    (∀ b, runBody env = .error b →
      runDeliver env = .error b ∧ IsUpstreamFailure env b) ∧
    (∀ out, runBody env = .ok out → AllProjectCallsOk env) := by
  constructor
  · intro b hb
    exact runBody_error hb
  · intro out hout p hp
    obtain ⟨prs, hrp, _, _, _, _⟩ := runBody_ok_fields hout
    obtain ⟨pr, hprmem, hpr1, hpr2⟩ := forall₂_mem_left (runProjects_ok hrp) hp
    obtain ⟨hsearch, mrs, hmrs, hmap⟩ := processProject_ok hpr2
    refine ⟨hsearch, mrs, hmrs, ?_⟩
    intro m hm hdraft
    have hmF : m ∈ mrs.filter (fun m => !m.draft) :=
      List.mem_filter.2 ⟨hm, by simp [hdraft]⟩
    obtain ⟨r, hrmem, hr⟩ := mapME_ok_of_mem _ hmap hmF
    have hspec := processMR_ok_spec hr
    exact ⟨hspec.2.2.2.1, hspec.2.2.2.2⟩

/-- Claim C7 witness: the run over `envBad`, whose project search fails with
body "boom", aborts delivery with exactly that body. -/
theorem c7_fatal_abort_witness :
    runDeliver envBad = .error "boom" ∧ IsUpstreamFailure envBad "boom" :=
  (c7_fatal_abort envBad).1 "boom" (by decide)

/-- Claim C8: in a completed run, the webhook POST list is empty iff the
accumulated notified-people set is empty; when that set is non-empty exactly
one POST of the assembled message is made; and the set is empty iff every
configured project's listing has no open non-draft merge request. -/
theorem c8_delivery_iff (env : Env) (hok : runOk env) :
    (postsOf env = [] ↔ notifiedPeopleOf env = ∅) ∧
    (notifiedPeopleOf env ≠ ∅ →
      postsOf env = [{ body := bodyOf env, entities := entitiesOf env }]) ∧
    (notifiedPeopleOf env = ∅ ↔
      ∀ p ∈ env.projects, ∀ mrs, p.mrsResp = .ok mrs →
        mrs.filter (fun m => !m.draft) = []) := by
  obtain ⟨out, hout⟩ := runOk_exists hok
  have hppl : notifiedPeopleOf env = out.notifiedPeople := by
    simp only [notifiedPeopleOf, hout]
  have hbody : bodyOf env = out.body := by
    simp only [bodyOf, hout]
  have hent : entitiesOf env = out.entities := by
    simp only [entitiesOf, hout]
  have hposts : postsOf env =
      (if 0 < out.notifiedPeople.card then
        [{ body := out.body, entities := out.entities }] else []) := by
    simp only [postsOf, runDeliver, hout]
  refine ⟨?_, ?_, ?_⟩
  · rw [hposts, hppl]
    constructor
    · intro hempty
      by_contra hne
      have hpos : 0 < out.notifiedPeople.card :=
        Finset.card_pos.2 (Finset.nonempty_iff_ne_empty.2 hne)
      rw [if_pos hpos] at hempty
      simp at hempty
    · intro hempty
      rw [hempty]
      simp
  · intro hne
    rw [hppl] at hne
    have hpos : 0 < out.notifiedPeople.card :=
      Finset.card_pos.2 (Finset.nonempty_iff_ne_empty.2 hne)
    rw [hposts, hbody, hent, if_pos hpos]
  · rw [hppl]
    exact run_people_empty_iff hout

/-- Claim C8 witness: the healthy run `envG` has a non-empty notified set and
makes exactly one POST; the equivalences are instantiated there. -/
theorem c8_delivery_iff_witness :
    (postsOf envG = [] ↔ notifiedPeopleOf envG = ∅) ∧
    (notifiedPeopleOf envG ≠ ∅ →
      postsOf envG = [{ body := bodyOf envG, entities := entitiesOf envG }]) ∧
    (notifiedPeopleOf envG = ∅ ↔
      ∀ p ∈ envG.projects, ∀ mrs, p.mrsResp = .ok mrs →
        mrs.filter (fun m => !m.draft) = []) :=
  c8_delivery_iff envG (by decide)

/-- Claim C9: the rendered mention-entity list of a pending set consists of
exactly the pending identities whose email resolves (public email, falling
back to the override map), in iteration order; and every pending identity —
email or not — is accumulated into the run's notified-people set, hence is
counted by the "Notified X people" summary. -/
theorem c9_email_filter :
    (∀ (env : Env) (s : Finset Nat) (tb : TextBlock) (ents : List Mention),
      make_mentions env s = .ok (tb, ents) →
        ents = ((sortedIds s).filter
          (fun id => emailResolvable env id)).map (entityOfId env)) ∧
    (∀ (env : Env) (p : ProjectData) (mrs : List MRData) (m : MRData),
      runOk env → p ∈ env.projects → p.mrsResp = .ok mrs → m ∈ mrs →
      m.draft = false → ∀ u ∈ pendingOf env m, u ∈ notifiedPeopleOf env) := by
  constructor
  · intro env s tb ents h
    exact make_mentions_ok_ents h
  · intro env p mrs m hok hp hmrs hm hdraft u hu
    obtain ⟨out, hout⟩ := runOk_exists hok
    obtain ⟨r, hr, _, hsub, _⟩ := run_processed hout hp hmrs hm hdraft
    have hspec := processMR_ok_spec hr
    rw [← hspec.1] at hu
    simp only [notifiedPeopleOf, hout]
    exact hsub u hu

/-- Claim C9 witness: over the directory of `envG`, the pending set {1, 2, 3}
mentions exactly 1 (public email) and 3 (override entry) and drops 2 (no
email, no override); and the pending identity 1 of `mrA` is accumulated into
the notified-people set of the run. -/
theorem c9_email_filter_witness :
    ([{ text := "<at>Alice</at>", id := "alice@x.com", name := "Alice" },
      { text := "<at>Carol</at>", id := "carol@x.com", name := "Carol" }] : List Mention) =
      ((sortedIds ({1, 2, 3} : Finset Nat)).filter
        (fun id => emailResolvable envG id)).map (entityOfId envG) ∧
    (1 : Nat) ∈ notifiedPeopleOf envG :=
  ⟨c9_email_filter.1 envG {1, 2, 3}
      { text := "<at>Alice</at> <at>Carol</at>", separator := false, bold := false }
      [{ text := "<at>Alice</at>", id := "alice@x.com", name := "Alice" },
       { text := "<at>Carol</at>", id := "carol@x.com", name := "Carol" }]
      (by decide),
   c9_email_filter.2 envG pG [mrA] mrA (by decide) (by decide) rfl (by decide) rfl 1 (by decide)⟩

/-- Claim C10: the notified merge-request accumulator is keyed by iid alone:
it equals the iid-image of the processed merge requests; so when a run
processes exactly two merge requests sharing an iid, both titles are reported
in the card body but they count as one in the "about Y MRs" summary. -/
theorem c10_iid_collision (env : Env) (m1 m2 : MRData)
    (hok : runOk env) (hlist : processedMrList env = [m1, m2])
    (hiid : m1.iid = m2.iid) :
    mrTitleString env m1 ∈ bodyTexts env ∧
    mrTitleString env m2 ∈ bodyTexts env ∧
    notifiedMrsOf env = ((processedMrList env).map MRData.iid).toFinset ∧
    (notifiedMrsOf env).card = 1 := by
  obtain ⟨out, hout⟩ := runOk_exists hok
  have hmrsOf : notifiedMrsOf env = out.notifiedMrs := by
    simp only [notifiedMrsOf, hout]
  have htitle : ∀ m, m ∈ processedMrList env →
      mrTitleString env m ∈ bodyTexts env := by
    intro m hm
    obtain ⟨p, hp, mrs, hmrs, hmm, hdraft⟩ := (mem_processedMrList env m).1 hm
    obtain ⟨r, hr, ht, _, _⟩ := run_processed hout hp hmrs hmm hdraft
    have hspec := processMR_ok_spec hr
    have htext : r.titleBlock.text = mrTitleString env m := by rw [hspec.2.1]
    simp only [bodyTexts, hout]
    rw [← htext]
    exact ht
  have hm1 : m1 ∈ processedMrList env := by
    rw [hlist]; exact List.mem_cons_self _ _
  have hm2 : m2 ∈ processedMrList env := by
    rw [hlist]; exact List.mem_cons_of_mem _ (List.mem_cons_self _ _)
  have hkey : notifiedMrsOf env = ((processedMrList env).map MRData.iid).toFinset := by
    rw [hmrsOf]
    exact run_notifiedMrs hout
  refine ⟨htitle m1 hm1, htitle m2 hm2, hkey, ?_⟩
  rw [hkey, hlist]
  simp [hiid]

/-- Claim C10 witness: the run `envF` over two projects whose merge requests
share iid 77 reports both titles yet counts a single merge request. -/
theorem c10_iid_collision_witness :
    mrTitleString envF mrF1 ∈ bodyTexts envF ∧
    mrTitleString envF mrF2 ∈ bodyTexts envF ∧
    notifiedMrsOf envF = ((processedMrList envF).map MRData.iid).toFinset ∧
    (notifiedMrsOf envF).card = 1 :=
  c10_iid_collision envF mrF1 mrF2 (by decide) (by decide) rfl
